import Mathlib

/-!
# Verification of the positional-tokenizer scanner

Shallow embedding of the `positional-tokenizer` library: the `Token` record,
the baked rule record (`TokenizerBakedRule`), and the `Tokenizer` class with
its `tokenize`, `update`, `ruleMono` / `ruleMulti` and default-rule logic,
translated from the TypeScript source.  JavaScript strings are modelled as
Lean strings (sequences of characters), a compiled regular expression is
modelled by its single-character test `Char → Bool`, and the dynamically
typed argument of `tokenize` is modelled by the `JSValue` sum type.
-/

set_option maxHeartbeats 1000000

namespace PositionalTokenizer

/-- Modelled from the spec: the predefined predicate sets "match any character
in Unicode category X", i.e. the single-character test of the JS regular
expression `\p{X}` with the `u` flag.  The model is faithful on the ASCII
range (U+0000..U+007F), which covers every concrete character used in this
development, for the five top-level category codes used by the library's
default rules ("L" Letter, "Z" Separator, "P" Punctuation, "N" Number,
"S" Symbol) and the dash subcategory "Pd"; characters above U+007F and other
category codes are outside the model and map to `false`.  The general
theorems below quantify over arbitrary predicates and do not depend on this
table. -/
def categoryTest (code : String) (c : Char) : Bool :=
  let n := c.toNat
  if 128 ≤ n then false
  else if code = "L" then decide ((65 ≤ n ∧ n ≤ 90) ∨ (97 ≤ n ∧ n ≤ 122))
  else if code = "Z" then decide (n = 32)
  else if code = "N" then decide (48 ≤ n ∧ n ≤ 57)
  else if code = "P" then
    [33, 34, 35, 37, 38, 39, 40, 41, 42, 44, 45, 46, 47, 58, 59, 63, 64,
      91, 92, 93, 95, 123, 125].contains n
  else if code = "S" then [36, 43, 60, 61, 62, 94, 96, 124, 126].contains n
  else if code = "Pd" then decide (n = 45)
  else false

/-- Enum member `TokenizeLetter.ALL = "L"`. -/
def TokenizeLetter.ALL : String := "L"

/-- Enum member `TokenizeSeparator.ALL = "Z"`. -/
def TokenizeSeparator.ALL : String := "Z"

/-- Enum member `TokenizePunctuation.ALL = "P"`. -/
def TokenizePunctuation.ALL : String := "P"

/-- Enum member `TokenizeNumber.ALL = "N"`. -/
def TokenizeNumber.ALL : String := "N"

/-- Enum member `TokenizeSymbol.ALL = "S"`. -/
def TokenizeSymbol.ALL : String := "S"

/-- Enum member `TokenizeWord.COMPLEX = "[\\p{L}\\p{Pd}']"`. -/
def TokenizeWord.COMPLEX : String := "[\\p{L}\\p{Pd}\x27]"

/-- Enum member `TokenizeWord.SIMPLE = "L"`. -/
def TokenizeWord.SIMPLE : String := "L"

/-- A tokenization pattern as accepted by the rule builders: either one of the
`KnownRegexPatterns` enum strings, or a caller-supplied `RegExp`, the latter
modelled by its single-character test. -/
inductive Pat where
  | known : String → Pat
  | custom : (Char → Bool) → Pat

/-- JavaScript falsiness of the pattern value looked up from the rule record
(`if (!regex) throw ...`): an absent value (`undefined`) and the empty string
are falsy; a `RegExp` object is always truthy. -/
def patFalsy : Option Pat → Bool
  | none => true
  | some (.known s) => s = ""
  | some (.custom _) => false

/-- `TokenizerBakedRule.toRegex`: a `RegExp` is used as is; the string
`TokenizeWord.COMPLEX` compiles to the character class `[\p{L}\p{Pd}']`
(letter, dash or apostrophe, code 39); any other known pattern string `X`
compiles to `\p{X}` (with the `u` flag), modelled by `categoryTest`. -/
def toRegex : Pat → (Char → Bool)
  | .known s =>
      if s = TokenizeWord.COMPLEX then
        fun c => categoryTest "L" c || categoryTest "Pd" c || c.toNat = 39
      else categoryTest s
  | .custom f => f

/-- A baked rule (`TokenizerBakedRule`): field `r` (the compiled regex,
modelled by its single-character test), field `t` (the token type) and field
`m` (the capture-multi flag), exposed by the getters `regex`, `type` and
`shouldCaptureMulti`. -/
structure TokenizerBakedRule where
  regex : Char → Bool
  type : String
  shouldCaptureMulti : Bool

/-- The `TokenizerBakedRule` constructor.  Its argument, a plain JS object
`TokenizerRule = Record<TokenType, pattern>`, is modelled as its ordered list
of key/value entries (a value may be absent).  The constructor throws
"Omitting the rule that has no type" when the object has no keys, takes the
first key as the rule type, and throws "Omitting the rule that has no value"
when the looked-up pattern value is falsy. -/
def TokenizerBakedRule.make (rule : List (String × Option Pat))
    (captureMulti : Bool) : Except String TokenizerBakedRule :=
  match rule with
  | [] => .error "Omitting the rule that has no type"
  | (ruleType, regex) :: _ =>
      if patFalsy regex then .error "Omitting the rule that has no value"
      else
        match regex with
        | none => .error "Omitting the rule that has no value"
        | some p =>
            .ok { regex := toRegex p, type := ruleType,
                  shouldCaptureMulti := captureMulti }

/-- A token: 0-based emission index, type label, matched substring, and the
half-open character span `position = [start, end)` into the original text. -/
structure Token where
  index : Nat
  type : String
  value : String
  position : Nat × Nat
  deriving DecidableEq, Repr

/-- The dynamically typed argument of `tokenize`: a string, or one of the
non-string values exercised by the test suite (`undefined`, `null`, a number,
a plain object). -/
inductive JSValue where
  | str : String → JSValue
  | undefined : JSValue
  | null : JSValue
  | num : Int → JSValue
  | obj : JSValue

/-- The un-tagging glue for a `JSValue` known to be a string. -/
def JSValue.asString : JSValue → String
  | .str s => s
  | _ => ""

/-- The tokenizer (`Tokenizer` class): its only state is the active baked
rule list `r`. -/
structure Tokenizer where
  r : List TokenizerBakedRule

/-- `Tokenizer.isString`: `typeof text === 'string' || text instanceof
String`. -/
def Tokenizer.isString : JSValue → Bool
  | .str _ => true
  | _ => false

/-- `Tokenizer.ruleMono`: bakes a single-capture rule, catching a constructor
throw and returning `null` (modelled by `none`) in that case. -/
def Tokenizer.ruleMono (rule : List (String × Option Pat)) :
    Option TokenizerBakedRule :=
  (TokenizerBakedRule.make rule false).toOption

/-- `Tokenizer.ruleMulti`: bakes a multi-capture rule, catching a constructor
throw and returning `null` (modelled by `none`) in that case. -/
def Tokenizer.ruleMulti (rule : List (String × Option Pat)) :
    Option TokenizerBakedRule :=
  (TokenizerBakedRule.make rule true).toOption

/-- `Tokenizer.getDefaultRules`: the five built-in rules, in source order. -/
def Tokenizer.getDefaultRules : List (Option TokenizerBakedRule) :=
  [Tokenizer.ruleMulti [("word", some (.known TokenizeLetter.ALL))],
   Tokenizer.ruleMono [("space", some (.known TokenizeSeparator.ALL))],
   Tokenizer.ruleMono [("punctuation", some (.known TokenizePunctuation.ALL))],
   Tokenizer.ruleMulti [("number", some (.known TokenizeNumber.ALL))],
   Tokenizer.ruleMulti [("symbol", some (.known TokenizeSymbol.ALL))]]

/-- The `Tokenizer` constructor: `rules || getDefaultRules()` followed by
`filter(r => Boolean(r))`.  An omitted / `null` / `undefined` argument is
modelled by `none`; note that an explicitly passed empty array is truthy in
JS, so it does NOT fall back to the defaults. -/
def Tokenizer.make (rules : Option (List (Option TokenizerBakedRule))) :
    Tokenizer :=
  { r := (rules.getD Tokenizer.getDefaultRules).filterMap id }

/-- `Tokenizer.update`: replaces the active rule list (again filtering out
`null` entries) and returns the tokenizer itself. -/
def Tokenizer.update (t : Tokenizer) (rules : List (Option TokenizerBakedRule)) :
    Tokenizer :=
  { t with r := rules.filterMap id }

/-- The scanning loop of `Tokenizer.tokenize`, one recursive step per cursor
position.  `l` is the unscanned suffix of the text, `pos` the cursor offset of
its head in the full text, `idx` the number of tokens emitted so far
(`tokens.length`).  The inner `for` over the rules with `break` is
`List.find?`; the inner `while` of the capture-multi branch extends the match
with `takeWhile` and resumes the outer loop at the first failing character
(`cursor = end - 1` followed by `cursor++`), i.e. on `dropWhile`.  The loop
advances the cursor by at least one position per iteration, so it runs at
most `size` iterations; `fuel` is that structural iteration budget (the
top-level call passes the text length, which never runs out — every theorem
below assumes only `l.length ≤ fuel`). -/
def Tokenizer.tokenizeAux (rules : List TokenizerBakedRule) :
    Nat → List Char → Nat → Nat → List Token
  | _, [], _, _ => []
  | 0, _ :: _, _, _ => []
  | fuel + 1, c :: rest, pos, idx =>
      match rules.find? (fun r => r.regex c) with
      | none => Tokenizer.tokenizeAux rules fuel rest (pos + 1) idx
      | some r =>
          if r.shouldCaptureMulti then
            let run := rest.takeWhile r.regex
            { index := idx, type := r.type, value := ⟨c :: run⟩,
              position := (pos, pos + 1 + run.length) } ::
              Tokenizer.tokenizeAux rules fuel (rest.dropWhile r.regex)
                (pos + 1 + run.length) (idx + 1)
          else
            { index := idx, type := r.type, value := ⟨[c]⟩,
              position := (pos, pos + 1) } ::
              Tokenizer.tokenizeAux rules fuel rest (pos + 1) (idx + 1)

/-- `Tokenizer.tokenize`: returns `[]` for a non-string argument, otherwise
scans the text from cursor 0 with no tokens emitted yet. -/
def Tokenizer.tokenize (t : Tokenizer) (text : JSValue) : List Token :=
  if Tokenizer.isString text then
    Tokenizer.tokenizeAux t.r (JSValue.asString text).data.length
      (JSValue.asString text).data 0 0
  else []

/-- `tokenize` on a value statically known to be a string. -/
def Tokenizer.tokenizeStr (t : Tokenizer) (s : String) : List Token :=
  t.tokenize (.str s)

/-- The method call `tokenize` in state-passing form: the body of `tokenize`
reads `this.r` (through the `rules` getter) and never assigns to it, so the
post-state of the call is the pre-state. -/
def Tokenizer.tokenizeCall (t : Tokenizer) (text : JSValue) :
    List Token × Tokenizer :=
  (t.tokenize text, t)

/-- Does some rule of the list match the character?  A character is consumed
by the scan exactly when this holds (proved below). -/
def anyMatch (rules : List TokenizerBakedRule) (c : Char) : Bool :=
  rules.any (fun r => r.regex c)

/-- The concatenation of the emitted tokens' `value`s, in emission order. -/
def concatValues (toks : List Token) : String :=
  ⟨(toks.map (fun t => t.value.data)).flatten⟩

/-- The effect of one matched rule at the cursor, read off the matched-rule
branch of the scanning loop: the emitted token, the unscanned suffix the loop
resumes on, and the new cursor offset.  It depends only on the matched rule
`r` (and the text), on no other rule of the list. -/
def ruleStep (r : TokenizerBakedRule) (c : Char) (rest : List Char)
    (pos idx : Nat) : Token × List Char × Nat :=
  if r.shouldCaptureMulti then
    ({ index := idx, type := r.type, value := ⟨c :: rest.takeWhile r.regex⟩,
       position := (pos, pos + 1 + (rest.takeWhile r.regex).length) },
     rest.dropWhile r.regex, pos + 1 + (rest.takeWhile r.regex).length)
  else
    ({ index := idx, type := r.type, value := ⟨[c]⟩,
       position := (pos, pos + 1) }, rest, pos + 1)

/-- The default word rule in isolation: `Tokenizer.ruleMulti({word:
TokenizeLetter.ALL})`, with the `null` case stripped. -/
def wordRule : TokenizerBakedRule :=
  { regex := toRegex (.known TokenizeLetter.ALL), type := "word",
    shouldCaptureMulti := true }

/-- The custom single-character rule of the README example: type `period`,
pattern `new RegExp('\\.')` (matches only the full stop, code 46), mono. -/
def periodRule : TokenizerBakedRule :=
  { regex := fun c => c.toNat = 46, type := "period", shouldCaptureMulti := false }

/-- A custom rule whose regular expression matches every character, used to
exercise rule-priority behaviour. -/
def anyCharRule : TokenizerBakedRule :=
  { regex := fun _ => true, type := "any", shouldCaptureMulti := false }

/-- A concrete token used to instantiate the span-invariant claims. -/
def sampleToken : Token :=
  { index := 0, type := "word", value := "a", position := (0, 1) }

/-- Well-formedness of the token list produced by the scan of the text
`full` from cursor `pos` onwards with `idx` tokens already emitted: indices
are sequential; each token's span starts no earlier than the cursor, is
non-empty and lies within the text; every character position skipped between
the cursor and the next token (and after the last token) is matched by no
rule; and each token's value is the slice of the text at its span. -/
def TokSeqOK (rules : List TokenizerBakedRule) (full : List Char) :
    Nat → Nat → List Token → Prop
  | pos, _, [] =>
      ∀ k, pos ≤ k → k < full.length → anyMatch rules (full.getD k 'A') = false
  | pos, idx, t :: ts =>
      t.index = idx ∧ pos ≤ t.position.1 ∧ t.position.1 < t.position.2 ∧
      t.position.2 ≤ full.length ∧
      (∀ k, pos ≤ k → k < t.position.1 →
        anyMatch rules (full.getD k 'A') = false) ∧
      t.value.data = (full.drop t.position.1).take (t.position.2 - t.position.1) ∧
      TokSeqOK rules full t.position.2 (idx + 1) ts

/-! ## General lemmas about the scanning loop -/

theorem concatValues_nil : (concatValues []).data = [] := rfl

theorem concatValues_cons (t : Token) (ts : List Token) :
    (concatValues (t :: ts)).data = t.value.data ++ (concatValues ts).data := rfl

theorem anyMatch_of_find?_some {rules : List TokenizerBakedRule} {c : Char}
    {r : TokenizerBakedRule}
    (h : rules.find? (fun ru => ru.regex c) = some r) : anyMatch rules c = true := by
  have hr : r ∈ rules := List.mem_of_find?_eq_some h
  have hc : r.regex c = true := by simpa using List.find?_some h
  simp only [anyMatch, List.any_eq_true]
  exact ⟨r, hr, hc⟩

theorem anyMatch_of_find?_none {rules : List TokenizerBakedRule} {c : Char}
    (h : rules.find? (fun ru => ru.regex c) = none) : anyMatch rules c = false := by
  rw [List.find?_eq_none] at h
  simp only [anyMatch, List.any_eq_false]
  exact h

theorem dropWhile_length_le {α : Type} (p : α → Bool) (l : List α) :
    (l.dropWhile p).length ≤ l.length := by
  induction l with
  | nil => simp [List.dropWhile]
  | cons a as ih =>
      by_cases ha : p a
      · simp only [List.dropWhile_cons_of_pos ha, List.length_cons]
        omega
      · simp [List.dropWhile_cons_of_neg ha]

theorem takeWhile_length_le {α : Type} (p : α → Bool) (l : List α) :
    (l.takeWhile p).length ≤ l.length := by
  induction l with
  | nil => simp [List.takeWhile]
  | cons a as ih =>
      by_cases ha : p a
      · simp only [List.takeWhile_cons_of_pos ha, List.length_cons]
        omega
      · simp [List.takeWhile_cons_of_neg ha]

theorem dropWhile_eq_drop {α : Type} (p : α → Bool) (l : List α) :
    l.dropWhile p = l.drop (l.takeWhile p).length := by
  induction l with
  | nil => simp [List.dropWhile, List.takeWhile]
  | cons a as ih =>
      by_cases ha : p a
      · simpa [List.dropWhile_cons_of_pos ha, List.takeWhile_cons_of_pos ha]
          using ih
      · simp [List.dropWhile_cons_of_neg ha, List.takeWhile_cons_of_neg ha]

/-- The characters the scan consumes are exactly the characters some rule
matches: the concatenation of all emitted values is the filter of the input
suffix by `anyMatch`. -/
theorem tokenizeAux_concat_filter (rules : List TokenizerBakedRule)
    (fuel : Nat) (l : List Char) (pos idx : Nat) (hfl : l.length ≤ fuel) :
    (concatValues (Tokenizer.tokenizeAux rules fuel l pos idx)).data
      = l.filter (anyMatch rules) := by
  revert hfl
  induction fuel, l, pos, idx using Tokenizer.tokenizeAux.induct rules with
  | case1 fuel pos idx =>
      intro hfl
      simp [Tokenizer.tokenizeAux, concatValues_nil]
  | case2 c rest pos idx =>
      intro hfl
      simp only [List.length_cons] at hfl
      omega
  | case3 fuel c rest pos idx hfind ih =>
      intro hfl
      simp only [List.length_cons] at hfl
      have ih := ih (by omega)
      have hc := anyMatch_of_find?_none hfind
      simp [Tokenizer.tokenizeAux, hfind, ih, List.filter_cons, hc]
  | case4 fuel c rest pos idx r hfind hmulti run ih =>
      intro hfl
      simp only [List.length_cons] at hfl
      have hdl : (rest.dropWhile r.regex).length ≤ rest.length :=
        dropWhile_length_le _ _
      have ih := ih (by omega)
      have hc := anyMatch_of_find?_some hfind
      have hrun : rest.filter (anyMatch rules) =
          run ++ (rest.dropWhile r.regex).filter (anyMatch rules) := by
        conv_lhs => rw [← List.takeWhile_append_dropWhile (p := r.regex) (l := rest)]
        rw [List.filter_append]
        congr 1
        apply List.filter_eq_self.mpr
        intro x hx
        have hpx : r.regex x = true := List.mem_takeWhile_imp hx
        have hrm : r ∈ rules := List.mem_of_find?_eq_some hfind
        simp only [anyMatch, List.any_eq_true]
        exact ⟨r, hrm, hpx⟩
      simp only [Tokenizer.tokenizeAux, hfind]
      rw [if_pos hmulti, concatValues_cons, ih, List.filter_cons_of_pos hc]
      simp only [run] at hrun ⊢
      rw [hrun]
      simp
  | case5 fuel c rest pos idx r hfind hmulti ih =>
      intro hfl
      simp only [List.length_cons] at hfl
      have ih := ih (by omega)
      have hc := anyMatch_of_find?_some hfind
      simp only [Tokenizer.tokenizeAux, hfind]
      rw [if_neg hmulti, concatValues_cons, ih, List.filter_cons_of_pos hc]
      simp

theorem takeWhile_eq_take {α : Type} (p : α → Bool) (l : List α) :
    l.takeWhile p = l.take (l.takeWhile p).length := by
  induction l with
  | nil => simp [List.takeWhile]
  | cons a as ih =>
      by_cases ha : p a
      · simp only [List.takeWhile_cons_of_pos ha, List.length_cons, List.take_succ_cons]
        rw [← ih]
      · simp [List.takeWhile_cons_of_neg ha]

theorem getD_drop {α : Type} (l : List α) (m n : Nat) (d : α) :
    (l.drop m).getD n d = l.getD (m + n) d := by
  induction l generalizing m with
  | nil => simp
  | cons a as ih =>
      cases m with
      | zero => simp
      | succ m =>
          have hmn : m + 1 + n = (m + n) + 1 := by omega
          rw [hmn, List.drop_succ_cons, List.getD_cons_succ, ih]

theorem getD_of_drop_eq_cons {full rest : List Char} {c : Char} {pos : Nat}
    (h : full.drop pos = c :: rest) : full.getD pos 'A' = c := by
  have h0 : (full.drop pos).getD 0 'A' = full.getD pos 'A' := by
    rw [getD_drop]
    simp
  rw [← h0, h]
  rfl

theorem drop_succ_of_drop_eq_cons {full rest : List Char} {c : Char} {pos : Nat}
    (h : full.drop pos = c :: rest) : full.drop (pos + 1) = rest := by
  have : full.drop (pos + 1) = (full.drop pos).drop 1 := by
    rw [List.drop_drop]
  rw [this, h, List.drop_succ_cons, List.drop_zero]

theorem length_facts_of_drop_eq_cons {full rest : List Char} {c : Char}
    {pos : Nat} (h : full.drop pos = c :: rest) :
    pos < full.length ∧ rest.length = full.length - pos - 1 := by
  have hl : (full.drop pos).length = full.length - pos := List.length_drop pos full
  rw [h] at hl
  simp only [List.length_cons] at hl
  omega

/-- Extending a scan invariant one dropped (unmatched) character to the
left. -/
theorem TokSeqOK.extend {rules : List TokenizerBakedRule} {full : List Char}
    {pos idx : Nat} {ts : List Token}
    (h : TokSeqOK rules full (pos + 1) idx ts)
    (hc : anyMatch rules (full.getD pos 'A') = false) :
    TokSeqOK rules full pos idx ts := by
  cases ts with
  | nil =>
      simp only [TokSeqOK] at h ⊢
      intro k hk1 hk2
      rcases Nat.eq_or_lt_of_le hk1 with rfl | hlt
      · exact hc
      · exact h k hlt hk2
  | cons t ts' =>
      simp only [TokSeqOK] at h ⊢
      obtain ⟨h1, h2, h3, h4, h5, h6, h7⟩ := h
      refine ⟨h1, by omega, h3, h4, ?_, h6, h7⟩
      intro k hk1 hk2
      rcases Nat.eq_or_lt_of_le hk1 with rfl | hlt
      · exact hc
      · exact h5 k hlt hk2

/-- Master invariant: the scan from cursor `pos` over the suffix
`full.drop pos` produces a well-formed token sequence. -/
theorem tokenizeAux_TokSeqOK (rules : List TokenizerBakedRule)
    (full : List Char) (fuel : Nat) (l : List Char) (pos idx : Nat)
    (hdrop : full.drop pos = l) (hfl : l.length ≤ fuel) :
    TokSeqOK rules full pos idx (Tokenizer.tokenizeAux rules fuel l pos idx) := by
  revert hdrop hfl
  induction fuel, l, pos, idx using Tokenizer.tokenizeAux.induct rules with
  | case1 fuel pos idx =>
      intro hdrop hfl
      have hl : full.length - pos = 0 := by
        have := List.length_drop pos full
        rw [hdrop] at this
        simpa using this.symm
      simp only [Tokenizer.tokenizeAux, TokSeqOK]
      intro k hk1 hk2
      omega
  | case2 c rest pos idx =>
      intro hdrop hfl
      simp only [List.length_cons] at hfl
      omega
  | case3 fuel c rest pos idx hfind ih =>
      intro hdrop hfl
      simp only [List.length_cons] at hfl
      have hrest : full.drop (pos + 1) = rest := drop_succ_of_drop_eq_cons hdrop
      have hc : full.getD pos 'A' = c := getD_of_drop_eq_cons hdrop
      have hnom : anyMatch rules (full.getD pos 'A') = false := by
        rw [hc]; exact anyMatch_of_find?_none hfind
      simp only [Tokenizer.tokenizeAux, hfind]
      exact TokSeqOK.extend (ih hrest (by omega)) hnom
  | case4 fuel c rest pos idx r hfind hmulti run ih =>
      intro hdrop hfl
      simp only [List.length_cons] at hfl
      have hrest : full.drop (pos + 1) = rest := drop_succ_of_drop_eq_cons hdrop
      have hlen := length_facts_of_drop_eq_cons hdrop
      have hrunlen : (rest.takeWhile r.regex).length ≤ rest.length :=
        takeWhile_length_le _ _
      have hdl : (rest.dropWhile r.regex).length ≤ rest.length :=
        dropWhile_length_le _ _
      have hdrop2 : full.drop (pos + 1 + (rest.takeWhile r.regex).length)
          = rest.dropWhile r.regex := by
        have h1 : full.drop (pos + 1 + (rest.takeWhile r.regex).length)
            = (full.drop (pos + 1)).drop (rest.takeWhile r.regex).length := by
          rw [List.drop_drop]
        rw [h1, hrest]
        exact (dropWhile_eq_drop r.regex rest).symm
      have hslice : (c :: rest.takeWhile r.regex : List Char)
          = (full.drop pos).take (pos + 1 + (rest.takeWhile r.regex).length - pos) := by
        have h2 : pos + 1 + (rest.takeWhile r.regex).length - pos
            = (rest.takeWhile r.regex).length + 1 := by omega
        rw [h2, hdrop, List.take_succ_cons]
        congr 1
        exact takeWhile_eq_take r.regex rest
      simp only [Tokenizer.tokenizeAux, hfind]
      rw [if_pos hmulti]
      refine ⟨rfl, Nat.le_refl pos, ?_, ?_, ?_, hslice, ih hdrop2 (by omega)⟩
      · show pos < pos + 1 + (rest.takeWhile r.regex).length
        omega
      · show pos + 1 + (rest.takeWhile r.regex).length ≤ full.length
        omega
      · show ∀ k, pos ≤ k → k < pos → anyMatch rules (full.getD k 'A') = false
        intro k hk1 hk2
        omega
  | case5 fuel c rest pos idx r hfind hmulti ih =>
      intro hdrop hfl
      simp only [List.length_cons] at hfl
      have hrest : full.drop (pos + 1) = rest := drop_succ_of_drop_eq_cons hdrop
      have hlen := length_facts_of_drop_eq_cons hdrop
      have hslice : ([c] : List Char) = (full.drop pos).take (pos + 1 - pos) := by
        have h2 : pos + 1 - pos = 1 := by omega
        rw [h2, hdrop]
        rfl
      simp only [Tokenizer.tokenizeAux, hfind]
      rw [if_neg hmulti]
      refine ⟨rfl, Nat.le_refl pos, ?_, ?_, ?_, hslice, ih hrest (by omega)⟩
      · show pos < pos + 1
        omega
      · show pos + 1 ≤ full.length
        omega
      · show ∀ k, pos ≤ k → k < pos → anyMatch rules (full.getD k 'A') = false
        intro k hk1 hk2
        omega

theorem TokSeqOK.index_eq {rules : List TokenizerBakedRule} {full : List Char} :
    ∀ {ts : List Token} {pos idx : Nat}, TokSeqOK rules full pos idx ts →
      ∀ i (hi : i < ts.length), (ts.get ⟨i, hi⟩).index = idx + i := by
  intro ts
  induction ts with
  | nil => intro pos idx h i hi; simp at hi
  | cons t ts' ih =>
      intro pos idx h i hi
      match i with
      | 0 => simpa using h.1
      | Nat.succ j =>
          have h7 := h.2.2.2.2.2.2
          have hj : j < ts'.length := by simpa using hi
          have := ih h7 j hj
          rw [List.get_cons_succ]
          omega

theorem TokSeqOK.chain_le {rules : List TokenizerBakedRule} {full : List Char} :
    ∀ {ts : List Token} {pos idx : Nat}, TokSeqOK rules full pos idx ts →
      List.Chain' (fun a b => a.position.2 ≤ b.position.1) ts := by
  intro ts
  induction ts with
  | nil => intro pos idx h; exact List.chain'_nil
  | cons t ts' ih =>
      intro pos idx h
      have h7 := h.2.2.2.2.2.2
      refine List.chain'_cons'.mpr ⟨?_, ih h7⟩
      intro y hy
      cases ts' with
      | nil => simp at hy
      | cons u ts'' =>
          simp only [List.head?_cons, Option.mem_def, Option.some.injEq] at hy
          subst hy
          exact h7.2.1

theorem TokSeqOK.mem_facts {rules : List TokenizerBakedRule} {full : List Char} :
    ∀ {ts : List Token} {pos idx : Nat}, TokSeqOK rules full pos idx ts →
      ∀ t ∈ ts, pos ≤ t.position.1 ∧ t.position.1 < t.position.2 ∧
        t.position.2 ≤ full.length ∧
        t.value.data = (full.drop t.position.1).take (t.position.2 - t.position.1) := by
  intro ts
  induction ts with
  | nil => intro pos idx h t ht; simp at ht
  | cons u ts' ih =>
      intro pos idx h t ht
      obtain ⟨h1, h2, h3, h4, h5, h6, h7⟩ := h
      rcases List.mem_cons.mp ht with rfl | hmem
      · exact ⟨h2, h3, h4, h6⟩
      · obtain ⟨i1, i2, i3, i4⟩ := ih h7 t hmem
        exact ⟨by omega, i2, i3, i4⟩

theorem TokSeqOK.gap {rules : List TokenizerBakedRule} {full : List Char} :
    ∀ {ts : List Token} {pos idx : Nat}, TokSeqOK rules full pos idx ts →
      ∀ i (hi1 : i < ts.length) (hi2 : i + 1 < ts.length) k,
        (ts.get ⟨i, hi1⟩).position.2 ≤ k →
        k < (ts.get ⟨i + 1, hi2⟩).position.1 →
        anyMatch rules (full.getD k 'A') = false := by
  intro ts
  induction ts with
  | nil => intro pos idx h i hi1 hi2; simp at hi1
  | cons t ts' ih =>
      intro pos idx h i hi1 hi2 k hk1 hk2
      have h7 := h.2.2.2.2.2.2
      match i with
      | 0 =>
          cases ts' with
          | nil => simp at hi2
          | cons u ts'' =>
              simp only [List.get_cons_succ] at hk2
              exact h7.2.2.2.2.1 k hk1 hk2
      | Nat.succ j =>
          have hj1 : j < ts'.length := by simpa using Nat.lt_of_succ_lt hi2
          have hj2 : j + 1 < ts'.length := by simpa using hi2
          simp only [List.get_cons_succ] at hk1 hk2
          exact ih h7 j hj1 hj2 k hk1 hk2

theorem TokSeqOK.nodrop {rules : List TokenizerBakedRule} {full : List Char} :
    ∀ {ts : List Token} {pos idx : Nat}, TokSeqOK rules full pos idx ts →
      (∀ k, pos ≤ k → k < full.length → anyMatch rules (full.getD k 'A') = true) →
      (∀ t, ts.head? = some t → t.position.1 = pos) ∧
      List.Chain' (fun a b => a.position.2 = b.position.1) ts := by
  intro ts
  induction ts with
  | nil =>
      intro pos idx h hall
      exact ⟨by intro t ht; simp at ht, List.chain'_nil⟩
  | cons t ts' ih =>
      intro pos idx h hall
      obtain ⟨h1, h2, h3, h4, h5, h6, h7⟩ := h
      have hstart : t.position.1 = pos := by
        by_contra hne
        have hlt : pos < t.position.1 := by omega
        have hm := hall pos (Nat.le_refl pos) (by omega)
        have hu := h5 pos (Nat.le_refl pos) hlt
        rw [hm] at hu
        simp at hu
      have hall' : ∀ k, t.position.2 ≤ k → k < full.length →
          anyMatch rules (full.getD k 'A') = true := by
        intro k hk1 hk2
        exact hall k (by omega) hk2
      obtain ⟨ihead, ichain⟩ := ih h7 hall'
      constructor
      · intro u hu
        simp only [List.head?_cons, Option.some.injEq] at hu
        subst hu
        exact hstart
      · refine List.chain'_cons'.mpr ⟨?_, ichain⟩
        intro y hy
        exact (ihead y hy).symm

theorem find?_first {α : Type} (p : α → Bool) :
    ∀ (l : List α) (i : Nat) (hi : i < l.length),
      p (l.get ⟨i, hi⟩) = true →
      (∀ j (hj : j < i), p (l.get ⟨j, Nat.lt_trans hj hi⟩) = false) →
      l.find? p = some (l.get ⟨i, hi⟩) := by
  intro l
  induction l with
  | nil => intro i hi; simp at hi
  | cons a l' ih =>
      intro i hi hp hfirst
      match i with
      | 0 =>
          simp only [List.get] at hp ⊢
          exact List.find?_cons_of_pos _ hp
      | Nat.succ j =>
          have ha : p a = false := by simpa using hfirst 0 (Nat.succ_pos j)
          have hj : j < l'.length := by simpa using hi
          have hp' : p (l'.get ⟨j, hj⟩) = true := by simpa using hp
          have hfirst' : ∀ m (hm : m < j),
              p (l'.get ⟨m, Nat.lt_trans hm hj⟩) = false := by
            intro m hm
            simpa using hfirst (m + 1) (by omega)
          rw [List.find?_cons_of_neg _ (by simp [ha])]
          rw [ih j hj hp' hfirst']
          simp

/-! ## The claims -/

/-- C1: for every input and rule configuration the concatenation of the
emitted values, in order, is the subsequence of the input consisting exactly
of the characters some rule matches (the characters consumed by matching
rules), in original order; and a character at the cursor that no rule's
predicate matches produces no token, the cursor advancing by 1 without
aborting the scan. -/
theorem claim_C1 (tk : Tokenizer) (s : String) :
    (concatValues (tk.tokenizeStr s)).data = s.data.filter (anyMatch tk.r)
    ∧ (∀ (rules : List TokenizerBakedRule) (fuel : Nat) (c : Char)
        (rest : List Char) (pos idx : Nat),
        (∀ r ∈ rules, r.regex c = false) →
        Tokenizer.tokenizeAux rules (fuel + 1) (c :: rest) pos idx
          = Tokenizer.tokenizeAux rules fuel rest (pos + 1) idx) := by
  constructor
  · show (concatValues
        (Tokenizer.tokenizeAux tk.r s.data.length s.data 0 0)).data = _
    exact tokenizeAux_concat_filter tk.r s.data.length s.data 0 0
      (Nat.le_refl _)
  · intro rules fuel c rest pos idx hnone
    have hfind : rules.find? (fun r => r.regex c) = none := by
      rw [List.find?_eq_none]
      intro x hx
      simp [hnone x hx]
    simp [Tokenizer.tokenizeAux, hfind]

theorem claim_C1_witness :
    (concatValues ((Tokenizer.make none).tokenizeStr "ab!")).data
        = "ab!".data.filter (anyMatch (Tokenizer.make none).r)
    ∧ Tokenizer.tokenizeAux [periodRule] (1 + 1) ('a' :: "b".data) 0 0
        = Tokenizer.tokenizeAux [periodRule] 1 "b".data (0 + 1) 0 :=
  ⟨(claim_C1 (Tokenizer.make none) "ab!").1,
   (claim_C1 (Tokenizer.make none) "ab!").2 [periodRule] 1 'a' "b".data 0 0
     (by decide)⟩

/-- C2: when the character at the cursor is matched by at least one rule, the
scan step is fully determined by the FIRST matching rule in list order: the
emitted token has that rule's type and the whole step (`ruleStep`) mentions no
later rule. -/
theorem claim_C2 (rules : List TokenizerBakedRule) (fuel : Nat) (c : Char)
    (rest : List Char) (pos idx : Nat) (i : Nat) (hi : i < rules.length)
    (hmatch : (rules.get ⟨i, hi⟩).regex c = true)
    (hfirst : ∀ j (hj : j < i), (rules.get ⟨j, Nat.lt_trans hj hi⟩).regex c = false) :
    Tokenizer.tokenizeAux rules (fuel + 1) (c :: rest) pos idx
      = (ruleStep (rules.get ⟨i, hi⟩) c rest pos idx).1
          :: Tokenizer.tokenizeAux rules fuel
              (ruleStep (rules.get ⟨i, hi⟩) c rest pos idx).2.1
              (ruleStep (rules.get ⟨i, hi⟩) c rest pos idx).2.2 (idx + 1)
    ∧ (ruleStep (rules.get ⟨i, hi⟩) c rest pos idx).1.type
        = (rules.get ⟨i, hi⟩).type := by
  have hfind : rules.find? (fun r => r.regex c) = some (rules.get ⟨i, hi⟩) :=
    find?_first _ rules i hi hmatch hfirst
  constructor
  · by_cases hm : (rules.get ⟨i, hi⟩).shouldCaptureMulti = true
    · simp only [Tokenizer.tokenizeAux, hfind]
      rw [if_pos hm]
      simp only [ruleStep]
      rw [if_pos hm]
    · simp only [Tokenizer.tokenizeAux, hfind]
      rw [if_neg hm]
      simp only [ruleStep]
      rw [if_neg hm]
  · simp only [ruleStep]
    split <;> rfl

theorem claim_C2_witness :
    Tokenizer.tokenizeAux [periodRule, anyCharRule] (0 + 1) ('.' :: []) 0 0
      = (ruleStep ([periodRule, anyCharRule].get ⟨0, by decide⟩) '.' [] 0 0).1
          :: Tokenizer.tokenizeAux [periodRule, anyCharRule] 0
              (ruleStep ([periodRule, anyCharRule].get ⟨0, by decide⟩) '.' [] 0 0).2.1
              (ruleStep ([periodRule, anyCharRule].get ⟨0, by decide⟩) '.' [] 0 0).2.2
              (0 + 1)
    ∧ (ruleStep ([periodRule, anyCharRule].get ⟨0, by decide⟩) '.' [] 0 0).1.type
        = ([periodRule, anyCharRule].get ⟨0, by decide⟩).type :=
  claim_C2 [periodRule, anyCharRule] 0 '.' [] 0 0 0 (by decide) (by decide)
    (fun j hj => absurd hj (by omega))

/-- C3: when the first matching rule at the cursor is a MULTI rule, the
emitted token covers the maximal contiguous run starting at the cursor of
characters satisfying that rule's predicate: the run's characters all satisfy
it, the first character after the run (if any) fails it, one token of length
`l = 1 + run` is emitted with span `[pos, pos + l)`, and the scan resumes at
the end of the run without re-examining any character of the run. -/
theorem claim_C3 (rules : List TokenizerBakedRule) (fuel : Nat)
    (r : TokenizerBakedRule) (c : Char) (rest : List Char) (pos idx : Nat)
    (hfind : rules.find? (fun ru => ru.regex c) = some r)
    (hmulti : r.shouldCaptureMulti = true) :
    Tokenizer.tokenizeAux rules (fuel + 1) (c :: rest) pos idx
      = { index := idx, type := r.type, value := ⟨c :: rest.takeWhile r.regex⟩,
          position := (pos, pos + 1 + (rest.takeWhile r.regex).length) }
        :: Tokenizer.tokenizeAux rules fuel
            (rest.drop (rest.takeWhile r.regex).length)
            (pos + 1 + (rest.takeWhile r.regex).length) (idx + 1)
    ∧ (∀ x ∈ rest.takeWhile r.regex, r.regex x = true)
    ∧ (∀ x, (rest.drop (rest.takeWhile r.regex).length).head? = some x →
        r.regex x = false) := by
  refine ⟨?_, ?_, ?_⟩
  · simp only [Tokenizer.tokenizeAux, hfind]
    rw [if_pos hmulti, ← dropWhile_eq_drop]
  · intro x hx
    exact List.mem_takeWhile_imp hx
  · intro x hx
    rw [← dropWhile_eq_drop] at hx
    have hnot := List.head?_dropWhile_not r.regex rest
    rw [hx] at hnot
    simpa using hnot

theorem claim_C3_witness :
    Tokenizer.tokenizeAux [wordRule] (3 + 1) ('a' :: "b!c".data) 0 0
      = { index := 0, type := wordRule.type,
          value := ⟨'a' :: "b!c".data.takeWhile wordRule.regex⟩,
          position := (0, 0 + 1 + ("b!c".data.takeWhile wordRule.regex).length) }
        :: Tokenizer.tokenizeAux [wordRule] 3
            ("b!c".data.drop ("b!c".data.takeWhile wordRule.regex).length)
            (0 + 1 + ("b!c".data.takeWhile wordRule.regex).length) (0 + 1) :=
  (claim_C3 [wordRule] 3 wordRule 'a' "b!c".data 0 0
    (by simp [List.find?, show wordRule.regex 'a' = true from by decide]) rfl).1

theorem getD_mem {α : Type} (l : List α) (n : Nat) (d : α) (h : n < l.length) :
    l.getD n d ∈ l := by
  induction l generalizing n with
  | nil => simp at h
  | cons a as ih =>
      cases n with
      | zero => simp
      | succ m =>
          simp only [List.getD_cons_succ]
          exact List.mem_cons_of_mem a (ih m (by simpa using h))

theorem tokenizeStr_TokSeqOK (tk : Tokenizer) (s : String) :
    TokSeqOK tk.r s.data 0 0 (tk.tokenizeStr s) := by
  show TokSeqOK tk.r s.data 0 0
    (Tokenizer.tokenizeAux tk.r s.data.length s.data 0 0)
  exact tokenizeAux_TokSeqOK tk.r s.data s.data.length s.data 0 0 (by simp)
    (Nat.le_refl _)

theorem tokenizeStr_concat_filter (tk : Tokenizer) (s : String) :
    (concatValues (tk.tokenizeStr s)).data = s.data.filter (anyMatch tk.r) := by
  show (concatValues (Tokenizer.tokenizeAux tk.r s.data.length s.data 0 0)).data = _
  exact tokenizeAux_concat_filter tk.r s.data.length s.data 0 0 (Nat.le_refl _)

theorem tokenizeAux_nil_rules :
    ∀ (fuel : Nat) (l : List Char) (pos idx : Nat),
      Tokenizer.tokenizeAux [] fuel l pos idx = [] := by
  intro fuel
  induction fuel with
  | zero =>
      intro l pos idx
      cases l <;> rfl
  | succ f ih =>
      intro l pos idx
      cases l with
      | nil => rfl
      | cons c rest =>
          have hfind : List.find? (fun r => r.regex c)
              ([] : List TokenizerBakedRule) = none := rfl
          simp [Tokenizer.tokenizeAux, hfind, ih]

/-- C4, counterexample: with rules that match only part of the input
(`period` only), the scan drops the unmatched characters, so consecutive
token spans need not be adjacent and the first token need not start at 0. -/
theorem claim_C4_counterexample :
    ¬ (∀ (tk : Tokenizer) (s : String),
        List.Chain' (fun a b => a.position.2 = b.position.1) (tk.tokenizeStr s)
        ∧ (∀ t, (tk.tokenizeStr s).head? = some t → t.position.1 = 0)) := by
  intro h
  obtain ⟨hchain, _⟩ := h (Tokenizer.make (some [some periodRule])) ".a."
  have heval : (Tokenizer.make (some [some periodRule])).tokenizeStr ".a."
      = [{ index := 0, type := "period", value := ".", position := (0, 1) },
         { index := 1, type := "period", value := ".", position := (2, 3) }] := by
    decide
  rw [heval] at hchain
  have h12 := (List.chain'_cons.mp hchain).1
  simp at h12

/-- C4, amended: provided every character of the input is matched by some
rule (so nothing is dropped), consecutive tokens satisfy
`position.end = position.start` of the next, the first token starts at
offset 0, and the concatenation of all values is the whole input. -/
theorem claim_C4 (tk : Tokenizer) (s : String)
    (hall : ∀ c ∈ s.data, anyMatch tk.r c = true) :
    List.Chain' (fun a b => a.position.2 = b.position.1) (tk.tokenizeStr s)
    ∧ (∀ t, (tk.tokenizeStr s).head? = some t → t.position.1 = 0)
    ∧ concatValues (tk.tokenizeStr s) = s := by
  have hOK := tokenizeStr_TokSeqOK tk s
  have hall' : ∀ k, 0 ≤ k → k < s.data.length →
      anyMatch tk.r (s.data.getD k 'A') = true := by
    intro k _ hk
    exact hall _ (getD_mem s.data k 'A' hk)
  obtain ⟨hhead, hchain⟩ := TokSeqOK.nodrop hOK hall'
  refine ⟨hchain, hhead, ?_⟩
  apply String.ext
  rw [tokenizeStr_concat_filter]
  exact List.filter_eq_self.mpr hall

theorem claim_C4_witness :
    List.Chain' (fun a b => a.position.2 = b.position.1)
      ((Tokenizer.make none).tokenizeStr "ab c")
    ∧ (∀ t, ((Tokenizer.make none).tokenizeStr "ab c").head? = some t →
        t.position.1 = 0)
    ∧ concatValues ((Tokenizer.make none).tokenizeStr "ab c") = "ab c" :=
  claim_C4 (Tokenizer.make none) "ab c" (by decide)

/-- C5: in the output of a single tokenize call the `index` values are
exactly `0..N-1` in emission order; the spans form a non-overlapping,
monotonically non-decreasing chain (`end ≤` next `start`); and for adjacent
tokens with no dropped characters between them (every position between the
spans is matched by some rule) the spans are adjacent
(`end =` next `start`). -/
theorem claim_C5 (tk : Tokenizer) (s : String) :
    (∀ i (hi : i < (tk.tokenizeStr s).length),
        ((tk.tokenizeStr s).get ⟨i, hi⟩).index = i)
    ∧ List.Chain' (fun a b => a.position.2 ≤ b.position.1) (tk.tokenizeStr s)
    ∧ (∀ i (hi1 : i < (tk.tokenizeStr s).length)
        (hi2 : i + 1 < (tk.tokenizeStr s).length),
        (∀ k, ((tk.tokenizeStr s).get ⟨i, hi1⟩).position.2 ≤ k →
            k < ((tk.tokenizeStr s).get ⟨i + 1, hi2⟩).position.1 →
            anyMatch tk.r (s.data.getD k 'A') = true) →
        ((tk.tokenizeStr s).get ⟨i, hi1⟩).position.2
          = ((tk.tokenizeStr s).get ⟨i + 1, hi2⟩).position.1) := by
  have hOK := tokenizeStr_TokSeqOK tk s
  have hchain := TokSeqOK.chain_le hOK
  refine ⟨?_, hchain, ?_⟩
  · intro i hi
    simpa using TokSeqOK.index_eq hOK i hi
  · intro i hi1 hi2 hgap
    have hle : ((tk.tokenizeStr s).get ⟨i, hi1⟩).position.2
        ≤ ((tk.tokenizeStr s).get ⟨i + 1, hi2⟩).position.1 := by
      have := List.chain'_iff_get.mp hchain i (by omega)
      simpa using this
    by_contra hne
    have hlt : ((tk.tokenizeStr s).get ⟨i, hi1⟩).position.2
        < ((tk.tokenizeStr s).get ⟨i + 1, hi2⟩).position.1 := by omega
    have hun := TokSeqOK.gap hOK i hi1 hi2
      ((tk.tokenizeStr s).get ⟨i, hi1⟩).position.2 (Nat.le_refl _) hlt
    have hma := hgap ((tk.tokenizeStr s).get ⟨i, hi1⟩).position.2
      (Nat.le_refl _) hlt
    rw [hma] at hun
    simp at hun

theorem claim_C5_witness :
    (((Tokenizer.make none).tokenizeStr "ab cd").get ⟨0, by decide⟩).index = 0
    ∧ (((Tokenizer.make none).tokenizeStr "ab cd").get ⟨0, by decide⟩).position.2
        = (((Tokenizer.make none).tokenizeStr "ab cd").get ⟨1, by decide⟩).position.1 :=
  ⟨(claim_C5 (Tokenizer.make none) "ab cd").1 0 (by decide),
   (claim_C5 (Tokenizer.make none) "ab cd").2.2 0 (by decide) (by decide)
     (by
       intro k hk1 hk2
       have e1 : ((((Tokenizer.make none).tokenizeStr "ab cd").get
           ⟨0, by decide⟩)).position.2 = 2 := by decide
       have e2 : ((((Tokenizer.make none).tokenizeStr "ab cd").get
           ⟨1, by decide⟩)).position.1 = 2 := by decide
       rw [e1] at hk1
       rw [e2] at hk2
       exact absurd (Nat.lt_of_le_of_lt hk1 hk2) (Nat.lt_irrefl 2))⟩

/-- C6, counterexample: an explicitly passed empty rule list is truthy in
JS, so `new Tokenizer([])` does NOT fall back to the five default rules: it
has no active rules at all and its `tokenize` returns no tokens, unlike a
tokenizer constructed with the argument omitted. -/
theorem claim_C6_counterexample :
    (Tokenizer.make (some [])).r.length = 0
    ∧ (Tokenizer.make none).r.length = 5
    ∧ (Tokenizer.make (some [])).tokenizeStr "a" = []
    ∧ (Tokenizer.make none).tokenizeStr "a"
        = [{ index := 0, type := "word", value := "a", position := (0, 1) }] := by
  refine ⟨rfl, rfl, rfl, by decide⟩

/-- C6, amended: only an omitted (or `null`/`undefined`) rules argument
falls back to the five default rules, in this fixed order: word (MULTI,
Letter), space (MONO, Separator), punctuation (MONO, Punctuation), number
(MULTI, Number), symbol (MULTI, Symbol); an explicitly passed empty rule
list is kept empty, and tokenize under it returns the empty sequence for
every text. -/
theorem claim_C6 :
    (Tokenizer.make none).r
      = [{ regex := toRegex (.known TokenizeLetter.ALL), type := "word",
           shouldCaptureMulti := true },
         { regex := toRegex (.known TokenizeSeparator.ALL), type := "space",
           shouldCaptureMulti := false },
         { regex := toRegex (.known TokenizePunctuation.ALL), type := "punctuation",
           shouldCaptureMulti := false },
         { regex := toRegex (.known TokenizeNumber.ALL), type := "number",
           shouldCaptureMulti := true },
         { regex := toRegex (.known TokenizeSymbol.ALL), type := "symbol",
           shouldCaptureMulti := true }]
    ∧ (Tokenizer.make (some [])).r = []
    ∧ ∀ (s : String), (Tokenizer.make (some [])).tokenizeStr s = [] := by
  refine ⟨rfl, rfl, ?_⟩
  intro s
  show Tokenizer.tokenizeAux [] s.data.length s.data 0 0 = []
  exact tokenizeAux_nil_rules s.data.length s.data 0 0

/-- C7: `tokenize` is total: for every non-string argument it returns the
empty token sequence instead of signaling an error, and the empty string
also yields the empty sequence. -/
theorem claim_C7 (tk : Tokenizer) :
    (∀ v : JSValue, Tokenizer.isString v = false → tk.tokenize v = [])
    ∧ tk.tokenize (.str "") = [] := by
  constructor
  · intro v hv
    simp [Tokenizer.tokenize, hv]
  · rfl

theorem claim_C7_witness :
    Tokenizer.isString JSValue.undefined = false
    ∧ (Tokenizer.make none).tokenize JSValue.undefined = [] :=
  ⟨rfl, (claim_C7 (Tokenizer.make none)).1 JSValue.undefined rfl⟩

/-- C8, counterexample: a rule whose (single) key is the empty string is
NOT rejected or skipped: the baked-rule constructor only throws when the
rule object has no keys at all, so `ruleMono({"": TokenizeLetter.ALL})`
yields a live rule of type `""` that survives into the active rule list and
emits tokens. -/
theorem claim_C8_counterexample :
    (Tokenizer.ruleMono [("", some (.known TokenizeLetter.ALL))]).isSome = true
    ∧ (Tokenizer.make
        (some [Tokenizer.ruleMono [("", some (.known TokenizeLetter.ALL))]])).r.length
        = 1
    ∧ (Tokenizer.make
        (some [Tokenizer.ruleMono [("", some (.known TokenizeLetter.ALL))]])).tokenizeStr
        "a"
        = [{ index := 0, type := "", value := "a", position := (0, 1) }] :=
  ⟨rfl, rfl, by decide⟩

/-- C8, amended: building a rule from an object with no key (missing type),
or whose pattern value is missing or the empty string, throws in the baked
rule constructor; `ruleMono` / `ruleMulti` catch the throw and return `null`,
and both the `Tokenizer` constructor and `update` filter `null` entries out
of the active rule list, so invalid rules never propagate an error into
tokenization.  A rule whose type is the empty string but whose pattern is
present is accepted, not rejected or skipped. -/
theorem claim_C8 :
    (∀ (m : Bool), TokenizerBakedRule.make [] m
        = .error "Omitting the rule that has no type")
    ∧ (∀ (ty : String) (entries : List (String × Option Pat)) (m : Bool),
        TokenizerBakedRule.make ((ty, none) :: entries) m
          = .error "Omitting the rule that has no value")
    ∧ (∀ (ty : String) (entries : List (String × Option Pat)) (m : Bool),
        TokenizerBakedRule.make ((ty, some (.known "")) :: entries) m
          = .error "Omitting the rule that has no value")
    ∧ (∀ rule, Tokenizer.ruleMono rule = (TokenizerBakedRule.make rule false).toOption
        ∧ Tokenizer.ruleMulti rule = (TokenizerBakedRule.make rule true).toOption)
    ∧ (∀ rules, (Tokenizer.make (some rules)).r = rules.filterMap id)
    ∧ (∀ (tk : Tokenizer) rules, (tk.update rules).r = rules.filterMap id)
    ∧ (Tokenizer.ruleMono [("", some (.known TokenizeLetter.ALL))]).isSome = true :=
  ⟨fun _ => rfl, fun _ _ _ => rfl, fun _ _ _ => rfl, fun _ => ⟨rfl, rfl⟩,
   fun _ => rfl, fun _ _ => rfl, rfl⟩

/-- C9: every emitted token's span is a non-empty subrange of the input
(`start < end ≤ length`, so no zero-width token is ever emitted), its value
is exactly the substring of the input at `[start, end)`, and its value's
length is `end - start`. -/
theorem claim_C9 (tk : Tokenizer) (s : String) :
    ∀ t ∈ tk.tokenizeStr s,
      t.position.1 < t.position.2 ∧ t.position.2 ≤ s.length
      ∧ t.value.data = (s.data.drop t.position.1).take (t.position.2 - t.position.1)
      ∧ t.value.length = t.position.2 - t.position.1 := by
  intro t ht
  have hOK := tokenizeStr_TokSeqOK tk s
  obtain ⟨h1, h2, h3, h4⟩ := TokSeqOK.mem_facts hOK t ht
  have hslen : s.length = s.data.length := rfl
  refine ⟨h2, by rw [hslen]; exact h3, h4, ?_⟩
  have hv : t.value.length = t.value.data.length := rfl
  rw [hv, h4, List.length_take, List.length_drop]
  omega

theorem claim_C9_witness :
    sampleToken.position.1 < sampleToken.position.2
    ∧ sampleToken.position.2 ≤ ("a" : String).length
    ∧ sampleToken.value.data
        = ("a".data.drop sampleToken.position.1).take
            (sampleToken.position.2 - sampleToken.position.1)
    ∧ sampleToken.value.length = sampleToken.position.2 - sampleToken.position.1 :=
  claim_C9 (Tokenizer.make none) "a" sampleToken (by decide)

/-- C10: the body of `tokenize` only reads the active rule list and never
assigns to it, so the post-state of a call equals the pre-state; hence two
successive calls with the same text return equal token sequences, and an
intervening call never alters the behaviour of a later one. -/
theorem claim_C10 (tk : Tokenizer) (x y : JSValue) :
    (tk.tokenizeCall x).2 = tk
    ∧ ((tk.tokenizeCall x).2.tokenizeCall x).1 = (tk.tokenizeCall x).1
    ∧ ((tk.tokenizeCall x).2.tokenizeCall y) = tk.tokenizeCall y :=
  ⟨rfl, rfl, rfl⟩

end PositionalTokenizer
